import Mathlib

set_option maxHeartbeats 1000000

namespace ExcelCleaner

/-! # Shallow embedding of excel-cleaner (src/excel-cleaner/app.py)

The script reads a table, validates the header of its first column,
cleans every cell of that column (unidecode, apostrophe removal,
deletion of characters outside A-Za-z0-9 and space, whitespace
collapsing, strip) and inserts the result as a column named "Cleaned"
at position 1, dropping a pre-existing column of that name first.
Strings are modelled as lists of characters wrapped in String; tables
as ordered lists of named columns. -/

/-- Cell values of a column, per the tagged union of the data model:
text, numbers, blank (missing) cells, and other values carrying a
string rendering. -/
inductive Cell where
  | text (s : String)
  | num (n : Int)
  | blank
  | other (s : String)
deriving DecidableEq, Repr

/-- Coercion of a cell to text, mirroring pandas astype(str): a string
is unchanged, a number is printed in decimal, a missing cell (float
NaN after reading a blank) prints as the literal string "nan". -/
def coerceStr : Cell → String
  | .text s => s
  | .num n => toString n
  | .blank => "nan"
  | .other s => s

/-- The apostrophe character, code point 39. -/
def apostrophe : Char := Char.ofNat 39

/-- Characters kept by the regex class A-Za-z0-9 and space of the
sub in clean_text_series. -/
def keepChar (c : Char) : Bool :=
  (65 ≤ c.toNat && c.toNat ≤ 90) || (97 ≤ c.toNat && c.toNat ≤ 122) ||
  (48 ≤ c.toNat && c.toNat ≤ 57) || c.toNat == 32

/-- Whitespace for the Python regex escape backslash-s on str and for
str.strip: ASCII whitespace, the file and group separators, NEL,
NBSP, and the Unicode space code points. -/
def isPySpace (c : Char) : Bool :=
  c.toNat == 32 || (9 ≤ c.toNat && c.toNat ≤ 13) || (28 ≤ c.toNat && c.toNat ≤ 31) ||
  c.toNat == 133 || c.toNat == 160 || c.toNat == 0x1680 ||
  (0x2000 ≤ c.toNat && c.toNat ≤ 0x200a) || c.toNat == 0x2028 || c.toNat == 0x2029 ||
  c.toNat == 0x202f || c.toNat == 0x205f || c.toNat == 0x3000

/-- Per-character transliteration table of unidecode, restricted to
the code points the repository exercises: code points below 128 map
to themselves (the x000 table of unidecode), the accented letters of
the bundled template rows map to their unaccented counterparts, the
sharp s maps to a digraph, and any other code point degrades to the
empty replacement. -/
def unidecodeChar (c : Char) : List Char :=
  if c.toNat < 128 then [c]
  else if c = 'é' ∨ c = 'è' ∨ c = 'ê' ∨ c = 'ë' then ['e']
  else if c = 'à' ∨ c = 'â' ∨ c = 'ä' then ['a']
  else if c = 'ç' then ['c']
  else if c = 'ï' ∨ c = 'î' then ['i']
  else if c = 'ü' ∨ c = 'ù' ∨ c = 'û' then ['u']
  else if c = 'ö' ∨ c = 'ô' then ['o']
  else if c = 'ß' then ['s', 's']
  else if c = 'ñ' then ['n']
  else []

/-- Transliteration of a whole string: unidecode maps each character
independently and concatenates the results. -/
def unidecode (s : String) : String :=
  ⟨(s.data.map unidecodeChar).flatten⟩

/-- Substitution engine for a Python re.sub whose pattern is a
character class followed by plus: every maximal run of characters
satisfying p is replaced by r. The Bool argument records whether the
scan stands inside a run already replaced. -/
def subRunsAux (p : Char → Bool) (r : List Char) : Bool → List Char → List Char
  | _, [] => []
  | inRun, c :: cs =>
    if p c then (if inRun then [] else r) ++ subRunsAux p r true cs
    else c :: subRunsAux p r false cs

/-- Replace every maximal run of characters satisfying p by r. -/
def subRuns (p : Char → Bool) (r : List Char) (l : List Char) : List Char :=
  subRunsAux p r false l

/-- Step out.str.replace with a literal apostrophe pattern and empty
replacement: every occurrence of the one-character needle is removed,
which on characters is a filter. -/
def str_replace_apos (s : String) : String :=
  ⟨s.data.filter (fun c => c != apostrophe)⟩

/-- Step out.str.replace with regex pattern class-complement-plus and
empty replacement: every run of characters outside A-Za-z0-9 and
space is deleted. -/
def re_sub_nonkept (s : String) : String :=
  ⟨subRuns (fun c => !keepChar c) [] s.data⟩

/-- Step out.str.replace with regex whitespace-plus and a single
space replacement: every whitespace run collapses to one space. -/
def re_sub_ws (s : String) : String :=
  ⟨subRuns isPySpace [' '] s.data⟩

/-- Whitespace stripping on characters: drop whitespace from the
front, then from the back by way of the reversal. -/
def stripChars (l : List Char) : List Char :=
  ((l.dropWhile isPySpace).reverse.dropWhile isPySpace).reverse

/-- Step str.strip: drop whitespace from both ends. -/
def str_strip (s : String) : String :=
  ⟨stripChars s.data⟩

/-- The Sanitizer: the chain of the four string operations of
clean_text_series after the unidecode map, in source order. -/
def sanitizer (s : String) : String :=
  str_strip (re_sub_ws (re_sub_nonkept (str_replace_apos s)))

/-- The whole per-cell transform of clean_text_series on an already
text-coerced value: transliterate, then sanitize. -/
def clean_text (s : String) : String :=
  sanitizer (unidecode s)

/-- clean_text_series: coerce every cell of the column to text and
clean it. -/
def clean_text_series (cells : List Cell) : List String :=
  cells.map (fun c => clean_text (coerceStr c))

/-! ## Spec-side sanitizer steps

One definition per numbered step of the Sanitizer contract, written
from the words of the spec, for comparison with the source chain. -/

/-- Spec step 1: remove all apostrophe characters. -/
def spec_remove_apostrophes (s : String) : String :=
  ⟨s.data.filter (fun c => c != apostrophe)⟩

/-- Spec step 2: remove every character that is not an ASCII letter,
ASCII digit, or single space. -/
def spec_remove_disallowed (s : String) : String :=
  ⟨s.data.filter keepChar⟩

/-- Spec step 3: collapse any run of one-or-more whitespace
characters into a single space. -/
def spec_collapse_ws (s : String) : String :=
  ⟨subRuns isPySpace [' '] s.data⟩

/-- Spec step 4: trim leading and trailing whitespace. -/
def spec_trim (s : String) : String :=
  ⟨stripChars s.data⟩

/-- No two adjacent characters are both whitespace. -/
def noTwoWS (l : List Char) : Prop :=
  List.Chain' (fun a b => ¬(isPySpace a = true ∧ isPySpace b = true)) l

/-! ## Tables and the pipeline -/

/-- A table: an ordered list of named columns, each an ordered list
of cells. -/
structure Table where
  cols : List (String × List Cell)
deriving DecidableEq, Repr

/-- The error outcomes of one pipeline run: zero columns, a blank or
placeholder header, and the ValueError pandas insert raises when the
insertion position exceeds the column count. -/
inductive PipeError where
  | emptyTable
  | missingHeader
  | insertError
deriving DecidableEq, Repr

/-- Python str.startswith on characters: the pattern characters form
a prefix of the characters of the string. -/
def py_startswith (s pat : String) : Bool :=
  pat.data.isPrefixOf s.data

/-- Decidable equality of pipeline results, for evaluating the
pipeline on concrete tables. -/
instance {ε α : Type} [DecidableEq ε] [DecidableEq α] :
    DecidableEq (Except ε α)
  | .error e, .error f =>
    if h : e = f then .isTrue (by rw [h])
    else .isFalse (by intro hh; cases hh; exact h rfl)
  | .error _, .ok _ => .isFalse (by intro h; cases h)
  | .ok _, .error _ => .isFalse (by intro h; cases h)
  | .ok a, .ok b =>
    if h : a = b then .isTrue (by rw [h])
    else .isFalse (by intro hh; cases hh; exact h rfl)

/-- The Column Validator of the script: stop on a table of zero
columns, stop when the first column name starts with "Unnamed" or
strips to the empty string, otherwise return the first column name. -/
def validate (df : Table) : Except PipeError String :=
  match df.cols with
  | [] => .error .emptyTable
  | (first_col, _) :: _ =>
    if py_startswith first_col "Unnamed" || str_strip first_col == "" then
      .error .missingHeader
    else
      .ok first_col

/-- pandas DataFrame.insert: place a new column at position i; a
position beyond the current column count raises, modelled as none. -/
def insertAt (i : Nat) (x : α) : List α → Option (List α)
  | l =>
    match i, l with
    | 0, l => some (x :: l)
    | _ + 1, [] => none
    | n + 1, c :: cs => (insertAt n x cs).map (fun m => c :: m)

/-- The output assembly: copy the frame, drop a pre-existing column
named "Cleaned", and insert the cleaned values as a column named
"Cleaned" at position 1. -/
def out_df (df : Table) (cleaned : List String) : Option Table :=
  let cols :=
    if df.cols.any (fun c => c.1 == "Cleaned") then
      df.cols.filter (fun c => c.1 != "Cleaned")
    else
      df.cols
  (insertAt 1 ("Cleaned", cleaned.map Cell.text) cols).map Table.mk

/-- One pipeline run on an already parsed table: validate, select the
column named by the validator, clean it, assemble the output. -/
def runPipeline (df : Table) : Except PipeError Table :=
  match validate df with
  | .error e => .error e
  | .ok name =>
    let vals := ((df.cols.find? (fun c => c.1 == name)).map Prod.snd).getD []
    match out_df df (clean_text_series vals) with
    | some t => .ok t
    | none => .error .insertError

/-- The scenario cell of the spec and of the first bundled template
row, spelled with explicit apostrophe characters. -/
def c4_input : String :=
  "qu" ++ String.singleton apostrophe ++ "est-ce qu" ++
    String.singleton apostrophe ++ "une souris ergonomique"

/-! ## Character facts -/

theorem keepChar_lt_128 {c : Char} (h : keepChar c = true) : c.toNat < 128 := by
  simp only [keepChar, Bool.or_eq_true, Bool.and_eq_true, decide_eq_true_eq,
    beq_iff_eq] at h
  omega

theorem char_eq_space_of_toNat {c : Char} (h : c.toNat = 32) : c = ' ' := by
  have := Char.ofNat_toNat c
  rw [h] at this
  exact this.symm

theorem keepChar_isPySpace_eq_space {c : Char} (hk : keepChar c = true)
    (hs : isPySpace c = true) : c = ' ' := by
  apply char_eq_space_of_toNat
  simp only [keepChar, Bool.or_eq_true, Bool.and_eq_true, decide_eq_true_eq,
    beq_iff_eq] at hk
  simp only [isPySpace, Bool.or_eq_true, Bool.and_eq_true, decide_eq_true_eq,
    beq_iff_eq] at hs
  omega

theorem keepChar_apostrophe : keepChar apostrophe = false := by decide

theorem isPySpace_space : isPySpace ' ' = true := by decide

theorem keepChar_space : keepChar ' ' = true := by decide

/-! ## The run-substitution engine -/

theorem subRunsAux_nil_rep (p : Char → Bool) (st : Bool) (l : List Char) :
    subRunsAux p [] st l = l.filter (fun c => !p c) := by
  induction l generalizing st with
  | nil => simp [subRunsAux]
  | cons c cs ih =>
    by_cases hc : p c <;> simp [subRunsAux, hc, ih]

theorem mem_subRunsAux {p : Char → Bool} {r : List Char} {st : Bool}
    {l : List Char} {c : Char} (h : c ∈ subRunsAux p r st l) :
    c ∈ r ∨ (c ∈ l ∧ p c = false) := by
  induction l generalizing st with
  | nil => simp [subRunsAux] at h
  | cons d ds ih =>
    by_cases hd : p d
    · rcases st with _ | _ <;> simp only [subRunsAux, hd, if_true,
        Bool.false_eq_true, if_false, if_true, List.nil_append,
        List.mem_append] at h
      · rcases h with h | h
        · exact .inl h
        · rcases ih h with h | ⟨hm, hp⟩
          · exact .inl h
          · exact .inr ⟨List.mem_cons_of_mem _ hm, hp⟩
      · rcases ih h with h | ⟨hm, hp⟩
        · exact .inl h
        · exact .inr ⟨List.mem_cons_of_mem _ hm, hp⟩
    · simp only [subRunsAux, hd, if_false, Bool.false_eq_true, List.mem_cons] at h
      rcases h with rfl | h
      · exact .inr ⟨List.mem_cons_self _ _, by simpa using hd⟩
      · rcases ih h with h | ⟨hm, hp⟩
        · exact .inl h
        · exact .inr ⟨List.mem_cons_of_mem _ hm, hp⟩

theorem head?_subRunsAux_true {p : Char → Bool} {r : List Char}
    {l : List Char} {c : Char}
    (h : (subRunsAux p r true l).head? = some c) : p c = false := by
  induction l with
  | nil => simp [subRunsAux] at h
  | cons d ds ih =>
    by_cases hd : p d
    · simp only [subRunsAux, hd, if_true, List.nil_append] at h
      exact ih h
    · simp only [subRunsAux, hd, Bool.false_eq_true, if_false, List.head?_cons,
        Option.some_inj] at h
      subst h
      simpa using hd

theorem chain'_subRunsAux (p : Char → Bool) (x : Char) (st : Bool)
    (l : List Char) :
    List.Chain' (fun a b => ¬(p a = true ∧ p b = true))
      (subRunsAux p [x] st l) := by
  induction l generalizing st with
  | nil => simp [subRunsAux]
  | cons d ds ih =>
    by_cases hd : p d
    · rcases st with _ | _
      · simp only [subRunsAux, hd, if_true, if_neg Bool.false_ne_true,
          List.singleton_append]
        refine List.chain'_cons'.mpr ⟨fun y hy => ?_, ih true⟩
        have := head?_subRunsAux_true hy
        simp [this]
      · simpa [subRunsAux, hd] using ih true
    · simp only [subRunsAux, hd, if_false]
      refine List.chain'_cons'.mpr ⟨fun y hy => ?_, ih false⟩
      simp [hd]

theorem subRunsAux_eq_self {p : Char → Bool} {x : Char} {l : List Char}
    (honly : ∀ c ∈ l, p c = true → c = x)
    (hch : List.Chain' (fun a b => ¬(p a = true ∧ p b = true)) l) :
    subRunsAux p [x] false l = l ∧
      ((∀ c, l.head? = some c → p c = false) → subRunsAux p [x] true l = l) := by
  induction l with
  | nil => simp [subRunsAux]
  | cons d ds ih =>
    have hch' := List.chain'_cons'.mp hch
    have ihds := ih (fun c hc => honly c (List.mem_cons_of_mem _ hc)) hch'.2
    by_cases hd : p d
    · have hdx : d = x := honly d (List.mem_cons_self _ _) hd
      have hds : ∀ c, ds.head? = some c → p c = false := by
        intro c hc
        have := hch'.1 c hc
        by_cases hpc : p c
        · exact absurd ⟨hd, hpc⟩ this
        · simpa using hpc
      constructor
      · simp only [subRunsAux, hd, if_true, if_neg Bool.false_ne_true,
          List.singleton_append, ihds.2 hds]
        rw [hdx]
      · intro hhead
        have := hhead d (by simp)
        rw [hd] at this
        exact absurd this (by simp)
    · constructor
      · simp [subRunsAux, hd, ihds.1]
      · intro _
        simp [subRunsAux, hd, ihds.1]

/-! ## dropWhile and stripping -/

theorem head?_dropWhile_not {α : Type} (p : α → Bool) {l : List α} {c : α}
    (h : (l.dropWhile p).head? = some c) : p c = false := by
  induction l with
  | nil => simp [List.dropWhile] at h
  | cons d ds ih =>
    by_cases hd : p d
    · rw [List.dropWhile_cons, if_pos hd] at h
      exact ih h
    · rw [List.dropWhile_cons, if_neg hd] at h
      simp only [List.head?_cons, Option.some_inj] at h
      subst h
      simpa using hd

theorem dropWhile_eq_self_of_head? {α : Type} (p : α → Bool) {l : List α}
    (h : ∀ c, l.head? = some c → p c = false) : l.dropWhile p = l := by
  cases l with
  | nil => rfl
  | cons d ds =>
    have hd := h d rfl
    rw [List.dropWhile_cons, if_neg (by simp [hd])]

theorem exists_append_dropWhile {α : Type} (p : α → Bool) (l : List α) :
    ∃ t, t ++ l.dropWhile p = l := by
  induction l with
  | nil => exact ⟨[], rfl⟩
  | cons d ds ih =>
    by_cases hd : p d
    · obtain ⟨t, ht⟩ := ih
      exact ⟨d :: t, by rw [List.dropWhile_cons, if_pos hd, List.cons_append, ht]⟩
    · exact ⟨[], by rw [List.dropWhile_cons, if_neg hd]; rfl⟩

theorem mem_of_mem_dropWhile {α : Type} {p : α → Bool} {l : List α} {c : α}
    (h : c ∈ l.dropWhile p) : c ∈ l := by
  obtain ⟨t, ht⟩ := exists_append_dropWhile p l
  rw [← ht]
  exact List.mem_append_right t h

theorem chain'_dropWhile {α : Type} {R : α → α → Prop} {p : α → Bool}
    {l : List α} (h : List.Chain' R l) : List.Chain' R (l.dropWhile p) := by
  obtain ⟨t, ht⟩ := exists_append_dropWhile p l
  rw [← ht] at h
  exact List.Chain'.right_of_append h

theorem mem_stripChars {l : List Char} {c : Char} (h : c ∈ stripChars l) :
    c ∈ l := by
  simp only [stripChars, List.mem_reverse] at h
  have h2 := mem_of_mem_dropWhile h
  rw [List.mem_reverse] at h2
  exact mem_of_mem_dropWhile h2

theorem head?_stripChars_not_ws {l : List Char} {c : Char}
    (h : (stripChars l).head? = some c) : isPySpace c = false := by
  rw [stripChars, List.head?_reverse] at h
  set X := (l.dropWhile isPySpace).reverse with hX
  have hne : X.dropWhile isPySpace ≠ [] := by
    intro hnil
    rw [hnil] at h
    simp at h
  obtain ⟨t, ht⟩ := exists_append_dropWhile isPySpace X
  have hXlast : X.getLast? = some c := by
    rw [← ht, List.getLast?_append_of_ne_nil t hne]
    exact h
  rw [hX, List.getLast?_reverse] at hXlast
  exact head?_dropWhile_not isPySpace hXlast

theorem getLast?_stripChars_not_ws {l : List Char} {c : Char}
    (h : (stripChars l).getLast? = some c) : isPySpace c = false := by
  rw [stripChars, List.getLast?_reverse] at h
  exact head?_dropWhile_not isPySpace h

theorem noTwoWS_stripChars {l : List Char} (h : noTwoWS l) :
    noTwoWS (stripChars l) := by
  have hsymm : ∀ m : List Char, noTwoWS m → noTwoWS m.reverse := by
    intro m hm
    rw [noTwoWS, List.chain'_reverse]
    exact List.Chain'.imp (fun a b hab hba => hab ⟨hba.2, hba.1⟩) hm
  exact hsymm _ (chain'_dropWhile (hsymm _ (chain'_dropWhile h)))

theorem stripChars_eq_self {l : List Char}
    (hh : ∀ c, l.head? = some c → isPySpace c = false)
    (hl : ∀ c, l.getLast? = some c → isPySpace c = false) :
    stripChars l = l := by
  rw [stripChars, dropWhile_eq_self_of_head? isPySpace hh,
    dropWhile_eq_self_of_head? isPySpace
      (fun c hc => hl c (by rwa [List.head?_reverse] at hc)),
    List.reverse_reverse]

/-! ## Characterisation of the sanitizer output -/

theorem mem_re_sub_nonkept {s : String} {c : Char}
    (h : c ∈ (re_sub_nonkept s).data) : keepChar c = true := by
  simp only [re_sub_nonkept, subRuns, subRunsAux_nil_rep, List.mem_filter,
    Bool.not_not] at h
  exact h.2

theorem sanitizer_props (s : String) :
    (∀ c ∈ (sanitizer s).data, keepChar c = true) ∧
    noTwoWS (sanitizer s).data ∧
    (∀ c, (sanitizer s).data.head? = some c → isPySpace c = false) ∧
    (∀ c, (sanitizer s).data.getLast? = some c → isPySpace c = false) := by
  have hkeep3 : ∀ c ∈ (re_sub_ws (re_sub_nonkept (str_replace_apos s))).data,
      keepChar c = true := by
    intro c hc
    rcases mem_subRunsAux hc with h | ⟨hm, _⟩
    · simp only [List.mem_singleton] at h
      rw [h]
      exact keepChar_space
    · exact mem_re_sub_nonkept hm
  have hch3 : noTwoWS (re_sub_ws (re_sub_nonkept (str_replace_apos s))).data :=
    chain'_subRunsAux isPySpace ' ' false _
  refine ⟨?_, ?_, ?_, ?_⟩
  · intro c hc
    exact hkeep3 c (mem_stripChars hc)
  · exact noTwoWS_stripChars hch3
  · intro c hc
    exact head?_stripChars_not_ws hc
  · intro c hc
    exact getLast?_stripChars_not_ws hc

/-! ## Idempotence of the composed clean -/

theorem unidecode_ascii {l : List Char} (h : ∀ c ∈ l, c.toNat < 128) :
    (l.map unidecodeChar).flatten = l := by
  induction l with
  | nil => rfl
  | cons d ds ih =>
    simp only [List.map_cons, List.flatten_cons]
    rw [unidecodeChar, if_pos (h d (List.mem_cons_self _ _))]
    simp [ih (fun c hc => h c (List.mem_cons_of_mem _ hc))]

theorem clean_text_eq_self {s : String}
    (hk : ∀ c ∈ s.data, keepChar c = true)
    (hch : noTwoWS s.data)
    (hh : ∀ c, s.data.head? = some c → isPySpace c = false)
    (hl : ∀ c, s.data.getLast? = some c → isPySpace c = false) :
    clean_text s = s := by
  have e1 : unidecode s = s := by
    rw [unidecode, unidecode_ascii (fun c hc => keepChar_lt_128 (hk c hc))]
  have e2 : str_replace_apos s = s := by
    rw [str_replace_apos]
    congr 1
    refine List.filter_eq_self.mpr (fun c hc => ?_)
    have : c ≠ apostrophe := by
      intro hca
      have hkc := hk c hc
      rw [hca, keepChar_apostrophe] at hkc
      exact absurd hkc (by simp)
    simpa using this
  have e3 : re_sub_nonkept s = s := by
    rw [re_sub_nonkept, subRuns, subRunsAux_nil_rep]
    congr 1
    rw [List.filter_congr (fun c _ => Bool.not_not (keepChar c))]
    exact List.filter_eq_self.mpr hk
  have e4 : re_sub_ws s = s := by
    rw [re_sub_ws, subRuns]
    have honly : ∀ c ∈ s.data, isPySpace c = true → c = ' ' :=
      fun c hc hs => keepChar_isPySpace_eq_space (hk c hc) hs
    rw [(subRunsAux_eq_self honly hch).1]
  have e5 : str_strip s = s := by
    rw [str_strip, stripChars_eq_self hh hl]
  rw [clean_text, e1, sanitizer, e2, e3, e4, e5]

theorem clean_text_idem (s : String) :
    clean_text (clean_text s) = clean_text s := by
  obtain ⟨hk, hch, hh, hl⟩ := sanitizer_props (unidecode s)
  exact clean_text_eq_self hk hch hh hl

/-! ## Pipeline lemmas -/

theorem validate_ok_shape {df : Table} {name : String}
    (h : validate df = .ok name) :
    ∃ vs rest, df.cols = (name, vs) :: rest ∧
      (py_startswith name "Unnamed" || str_strip name == "") = false := by
  rcases hcols : df.cols with _ | ⟨⟨n, vs⟩, rest⟩ <;>
    simp only [validate, hcols] at h
  · cases h
  · by_cases hc : (py_startswith n "Unnamed" || str_strip n == "") = true
    · rw [if_pos hc] at h
      cases h
    · rw [if_neg hc] at h
      cases h
      exact ⟨vs, rest, rfl, by simpa using hc⟩

theorem validate_of_shape {df : Table} {name : String} {vs : List Cell}
    {rest : List (String × List Cell)} (hcols : df.cols = (name, vs) :: rest)
    (hok : (py_startswith name "Unnamed" || str_strip name == "") = false) :
    validate df = .ok name := by
  simp only [validate, hcols]
  rw [if_neg (by simp [hok])]

theorem find?_first_col {n : String} {vs : List Cell}
    {rest : List (String × List Cell)} :
    ((((n, vs) :: rest).find? (fun c => c.1 == n)).map Prod.snd).getD [] = vs := by
  rw [List.find?_cons_of_pos _ (by simp)]
  rfl

theorem insertAt_one_cons {α : Type} {x c : α} {cs : List α} :
    insertAt 1 x (c :: cs) = some (c :: x :: cs) := rfl

theorem insertAt_one_inv {α : Type} {x : α} {l m : List α}
    (h : insertAt 1 x l = some m) : ∃ c cs, l = c :: cs ∧ m = c :: x :: cs := by
  cases l with
  | nil => cases h
  | cons c cs =>
    rw [insertAt_one_cons] at h
    cases h
    exact ⟨c, cs, rfl, rfl⟩

theorem any_cleaned_iff {cols : List (String × List Cell)} :
    cols.any (fun c => c.1 == "Cleaned") = true ↔
      "Cleaned" ∈ cols.map Prod.fst := by
  simp only [List.any_eq_true, List.mem_map, beq_iff_eq]

theorem filter_ne_cleaned_eq_self {cols : List (String × List Cell)}
    (h : "Cleaned" ∉ cols.map Prod.fst) :
    cols.filter (fun c => c.1 != "Cleaned") = cols := by
  refine List.filter_eq_self.mpr (fun c hc => ?_)
  have : c.1 ≠ "Cleaned" := by
    intro he
    exact h (he ▸ List.mem_map_of_mem Prod.fst hc)
  simpa using this

theorem filter_ne_cleaned_length {cols : List (String × List Cell)}
    (hnd : (cols.map Prod.fst).Nodup) (hmem : "Cleaned" ∈ cols.map Prod.fst) :
    (cols.filter (fun c => c.1 != "Cleaned")).length + 1 = cols.length := by
  induction cols with
  | nil => simp at hmem
  | cons d ds ih =>
    rw [List.map_cons, List.nodup_cons] at hnd
    by_cases hd : d.1 = "Cleaned"
    · have hds : "Cleaned" ∉ ds.map Prod.fst := hd ▸ hnd.1
      rw [List.filter_cons, if_neg (by simp [hd]),
        filter_ne_cleaned_eq_self hds]
      simp
    · have hmem' : "Cleaned" ∈ ds.map Prod.fst := by
        rcases List.mem_cons.mp hmem with h | h
        · exact absurd h.symm hd
        · exact h
      rw [List.filter_cons, if_pos (by simp [hd])]
      simp only [List.length_cons]
      rw [← ih hnd.2 hmem']

theorem out_df_eq (df : Table) (cleaned : List String) :
    out_df df cleaned =
      (insertAt 1 ("Cleaned", cleaned.map Cell.text)
        (if df.cols.any (fun c => c.1 == "Cleaned") then
          df.cols.filter (fun c => c.1 != "Cleaned")
        else df.cols)).map Table.mk := rfl

theorem out_df_some_inv {df : Table} {cleaned : List String} {t : Table}
    (h : out_df df cleaned = some t) :
    ∃ c cs, (if df.cols.any (fun c => c.1 == "Cleaned") then
        df.cols.filter (fun c => c.1 != "Cleaned") else df.cols) = c :: cs ∧
      t.cols = c :: ("Cleaned", cleaned.map Cell.text) :: cs := by
  rw [out_df_eq] at h
  rcases hins : insertAt 1 ("Cleaned", cleaned.map Cell.text)
      (if df.cols.any (fun c => c.1 == "Cleaned") then
        df.cols.filter (fun c => c.1 != "Cleaned") else df.cols) with _ | m
  · rw [hins] at h
    cases h
  · rw [hins] at h
    obtain ⟨c, cs, hpre, hm⟩ := insertAt_one_inv hins
    cases h
    exact ⟨c, cs, hpre, by rw [hm]⟩

theorem runPipeline_eq {df : Table} {name : String} {vs : List Cell}
    {rest : List (String × List Cell)}
    (hcols : df.cols = (name, vs) :: rest) (hv : validate df = .ok name) :
    runPipeline df =
      match out_df df (clean_text_series vs) with
      | some t => .ok t
      | none => .error .insertError := by
  simp only [runPipeline, hv, hcols, find?_first_col]

theorem runPipeline_ok_inv {df t : Table} (h : runPipeline df = .ok t) :
    ∃ name vs rest, df.cols = (name, vs) :: rest ∧ validate df = .ok name ∧
      out_df df (clean_text_series vs) = some t := by
  rcases hv : validate df with e | name
  · simp only [runPipeline, hv] at h
    exact absurd h (by simp)
  · obtain ⟨vs, rest, hcols, _⟩ := validate_ok_shape hv
    rw [runPipeline_eq hcols hv] at h
    rcases hout : out_df df (clean_text_series vs) with _ | t'
    · rw [hout] at h
      cases h
    · rw [hout] at h
      cases h
      exact ⟨name, vs, rest, hcols, rfl, hout⟩

theorem validate_error_runPipeline {df : Table} {e : PipeError}
    (h : validate df = .error e) : runPipeline df = .error e := by
  simp only [runPipeline, h]

theorem clean_text_nan : clean_text "nan" = "nan" := by decide

/-! ## Claim theorems on the text transform -/

/-- C1: for every input string, the composed clean (Transliterator
then Sanitizer) yields only characters from A-Za-z0-9 and space, has
no leading or trailing space, and has no internal run of two or more
consecutive spaces. -/
theorem clean_output_charset (s : String) :
    (∀ c ∈ (clean_text s).data, keepChar c = true) ∧
    (∀ c, (clean_text s).data.head? = some c → c ≠ ' ') ∧
    (∀ c, (clean_text s).data.getLast? = some c → c ≠ ' ') ∧
    ¬ [' ', ' '] <:+: (clean_text s).data := by
  obtain ⟨hk, hch, hh, hl⟩ := sanitizer_props (unidecode s)
  have hct : clean_text s = sanitizer (unidecode s) := rfl
  rw [hct]
  refine ⟨hk, ?_, ?_, ?_⟩
  · intro c hc hsp
    have hws := hh c hc
    rw [hsp, isPySpace_space] at hws
    cases hws
  · intro c hc hsp
    have hws := hl c hc
    rw [hsp, isPySpace_space] at hws
    cases hws
  · intro hinf
    have hpair := List.chain'_pair.mp ( List.Chain'.infix hch hinf)
    exact hpair ⟨isPySpace_space, isPySpace_space⟩

/-- C1 witness: at the concrete input nan, the character n of the
output is in the allowed set. -/
theorem clean_output_charset_witness : keepChar 'n' = true :=
  (clean_output_charset "nan").1 'n' (by decide)

/-- C2: the composed clean function is idempotent. -/
theorem clean_idempotent (s : String) :
    clean_text (clean_text s) = clean_text s :=
  clean_text_idem s

/-- C3: on every string the Sanitizer of the source equals the
composition, in this order, of removing apostrophes, removing
disallowed characters, collapsing whitespace runs to one space, and
trimming. -/
theorem sanitizer_spec_order (s : String) :
    sanitizer s =
      spec_trim (spec_collapse_ws (spec_remove_disallowed
        (spec_remove_apostrophes s))) := by
  have h : re_sub_nonkept (str_replace_apos s) =
      spec_remove_disallowed (spec_remove_apostrophes s) := by
    have he : str_replace_apos s = spec_remove_apostrophes s := rfl
    simp only [re_sub_nonkept, spec_remove_disallowed, subRuns,
      subRunsAux_nil_rep, he]
    congr 1
    exact List.filter_congr (fun c _ => Bool.not_not (keepChar c))
  rw [sanitizer, h]
  rfl

/-- C4 counterexample: the scenario cell does not clean to the spec
value quest ce quune souris ergonomique, because the code deletes
the hyphen without leaving a space. -/
theorem c4_scenario_counterexample :
    (clean_text c4_input == "quest ce quune souris ergonomique") = false := by
  decide

/-- C4 (amended): the scenario cell cleans to the value with est and
ce glued together. -/
theorem c4_scenario_value :
    clean_text c4_input = "questce quune souris ergonomique" := by
  decide

/-- C8: the transliterator and each sanitizer step are total: every
stage produces a value on every string, the empty string cleans to
the empty string, and an already clean string is left unchanged. -/
theorem clean_total :
    (∀ s : String, ∃ t1 t2 t3 t4 t5 : String,
      unidecode s = t1 ∧ str_replace_apos t1 = t2 ∧ re_sub_nonkept t2 = t3 ∧
      re_sub_ws t3 = t4 ∧ str_strip t4 = t5 ∧ clean_text s = t5) ∧
    clean_text "" = "" ∧
    (∀ c : Cell, ∃ r : String, clean_text_series [c] = [r]) ∧
    (∀ s : String, clean_text (clean_text s) = clean_text s) :=
  ⟨fun _ => ⟨_, _, _, _, _, rfl, rfl, rfl, rfl, rfl, rfl⟩, rfl,
    fun _ => ⟨_, rfl⟩, clean_text_idem⟩

/-! ## Claim theorems on the pipeline -/

/-- C7: the validator fails with the empty-table error exactly on a
zero-column table, fails with the missing-header error exactly when
the first column name starts with the Unnamed placeholder prefix (as
Unnamed: 0 does) or strips to the empty string, returns the first
column name on success, and every validation failure is propagated
by the pipeline unchanged, before any cleaning happens. -/
theorem validator_conditions (df : Table) :
    (validate df = .error .emptyTable ↔ df.cols = []) ∧
    (validate df = .error .missingHeader ↔
      ∃ n vs rest, df.cols = (n, vs) :: rest ∧
        (py_startswith n "Unnamed" || str_strip n == "") = true) ∧
    (∀ n, validate df = .ok n → ∃ vs rest, df.cols = (n, vs) :: rest) ∧
    (∀ e, validate df = .error e → runPipeline df = .error e) ∧
    py_startswith "Unnamed: 0" "Unnamed" = true := by
  refine ⟨⟨?_, ?_⟩, ⟨?_, ?_⟩, ?_, ?_, by decide⟩
  · intro h
    rcases hcols : df.cols with _ | ⟨⟨n, vs⟩, rest⟩
    · rfl
    · simp only [validate, hcols] at h
      by_cases hc : (py_startswith n "Unnamed" || str_strip n == "") = true
      · rw [if_pos hc] at h
        simp at h
      · rw [if_neg hc] at h
        simp at h
  · intro h
    simp [validate, h]
  · intro h
    rcases hcols : df.cols with _ | ⟨⟨n, vs⟩, rest⟩
    · simp only [validate, hcols] at h
      simp at h
    · simp only [validate, hcols] at h
      by_cases hc : (py_startswith n "Unnamed" || str_strip n == "") = true
      · exact ⟨n, vs, rest, rfl, hc⟩
      · rw [if_neg hc] at h
        simp at h
  · rintro ⟨n, vs, rest, hcols, hc⟩
    simp only [validate, hcols]
    rw [if_pos hc]
  · intro n h
    obtain ⟨vs, rest, hcols, _⟩ := validate_ok_shape h
    exact ⟨vs, rest, hcols⟩
  · intro e h
    exact validate_error_runPipeline h

/-- C7 witness: a one-column table headed Unnamed: 0 makes the whole
pipeline fail with the missing-header error. -/
theorem validator_conditions_witness :
    runPipeline ⟨[("Unnamed: 0", [Cell.text "x"])]⟩ =
      .error .missingHeader :=
  (validator_conditions ⟨[("Unnamed: 0", [Cell.text "x"])]⟩).2.2.2.1
    .missingHeader
    ((validator_conditions ⟨[("Unnamed: 0", [Cell.text "x"])]⟩).2.1.mpr
      ⟨"Unnamed: 0", [Cell.text "x"], [], rfl, by decide⟩)

/-- C5 counterexample: a pre-existing Cleaned column sitting at
position 2 of the input ends up at position 1 of the output, not at
the position it had. -/
theorem cleaned_position_counterexample :
    runPipeline ⟨[("A", [Cell.text "x"]), ("B", [Cell.text "y"]),
        ("Cleaned", [Cell.text "z"])]⟩ =
      .ok ⟨[("A", [Cell.text "x"]), ("Cleaned", [Cell.text "x"]),
        ("B", [Cell.text "y"])]⟩ ∧
    ([("A", [Cell.text "x"]), ("B", [Cell.text "y"]),
        ("Cleaned", [Cell.text "z"])].map Prod.fst).indexOf "Cleaned" = 2 ∧
    ([("A", [Cell.text "x"]), ("Cleaned", [Cell.text "x"]),
        ("B", [Cell.text "y"])].map Prod.fst).indexOf "Cleaned" = 1 :=
  ⟨by decide, by decide, by decide⟩

/-- C5 (amended): with a valid header and distinct column names, the
output of a successful run has one more column than the input when
no Cleaned column existed; when one existed and the input has at
least two columns, the column count is preserved but the Cleaned
column is reinserted at position 1 regardless of where it was. -/
theorem out_table_columns (df : Table) (name : String)
    (hv : validate df = .ok name) (hnd : (df.cols.map Prod.fst).Nodup) :
    ("Cleaned" ∉ df.cols.map Prod.fst →
      ∃ t, runPipeline df = .ok t ∧ t.cols.length = df.cols.length + 1 ∧
        ∃ c0 cl rest2, t.cols = c0 :: ("Cleaned", cl) :: rest2) ∧
    ("Cleaned" ∈ df.cols.map Prod.fst → 2 ≤ df.cols.length →
      ∃ t, runPipeline df = .ok t ∧ t.cols.length = df.cols.length ∧
        ∃ c0 cl rest2, t.cols = c0 :: ("Cleaned", cl) :: rest2) := by
  obtain ⟨vs, rest, hcols, _⟩ := validate_ok_shape hv
  constructor
  · intro hno
    have hany : df.cols.any (fun c => c.1 == "Cleaned") = false := by
      rw [← Bool.not_eq_true]
      intro hx
      exact hno (any_cleaned_iff.mp hx)
    refine ⟨⟨(name, vs) ::
      ("Cleaned", (clean_text_series vs).map Cell.text) :: rest⟩, ?_, ?_, ?_⟩
    · rw [runPipeline_eq hcols hv, out_df_eq, if_neg (by simp [hany]), hcols,
        insertAt_one_cons]
      rfl
    · simp [hcols]
    · exact ⟨_, _, _, rfl⟩
  · intro hmem hlen2
    have hany : df.cols.any (fun c => c.1 == "Cleaned") = true :=
      any_cleaned_iff.mpr hmem
    have hflen := filter_ne_cleaned_length hnd hmem
    rcases hfil : df.cols.filter (fun c => c.1 != "Cleaned") with _ | ⟨c0, cs⟩
    · rw [hfil] at hflen
      simp only [List.length_nil] at hflen
      omega
    · refine ⟨⟨c0 ::
        ("Cleaned", (clean_text_series vs).map Cell.text) :: cs⟩, ?_, ?_, ?_⟩
      · rw [runPipeline_eq hcols hv, out_df_eq, if_pos hany, hfil,
          insertAt_one_cons]
        rfl
      · rw [hfil] at hflen
        simp only [List.length_cons] at hflen ⊢
        omega
      · exact ⟨_, _, _, rfl⟩

/-- C5 witness: a one-column table without a Cleaned column gains one
column, the Cleaned column at position 1. -/
theorem out_table_columns_witness :
    ∃ t, runPipeline ⟨[("K", [Cell.text "a"])]⟩ = .ok t ∧
      t.cols.length = (Table.mk [("K", [Cell.text "a"])]).cols.length + 1 ∧
      ∃ c0 cl rest2, t.cols = c0 :: ("Cleaned", cl) :: rest2 :=
  (out_table_columns ⟨[("K", [Cell.text "a"])]⟩ "K" (by decide)
    (by decide)).1 (by decide)

/-- C6: a successful run preserves the row count of every column and
keeps every non-Cleaned input column, values and order untouched, in
the output. -/
theorem rows_preserved (df t : Table) (n : Nat)
    (hrun : runPipeline df = .ok t)
    (hlen : ∀ col ∈ df.cols, col.2.length = n) :
    (∀ col ∈ t.cols, col.2.length = n) ∧
    (∀ col ∈ df.cols, col.1 ≠ "Cleaned" → col ∈ t.cols) := by
  obtain ⟨name, vs, rest, hcols, hv, hout⟩ := runPipeline_ok_inv hrun
  obtain ⟨c0, cs, hpre, htc⟩ := out_df_some_inv hout
  have hpre_sub : ∀ col, col ∈ c0 :: cs → col ∈ df.cols := by
    intro col hc
    rw [← hpre] at hc
    by_cases hany : df.cols.any (fun c => c.1 == "Cleaned") = true
    · rw [if_pos hany] at hc
      exact List.mem_of_mem_filter hc
    · rw [if_neg hany] at hc
      exact hc
  constructor
  · intro col hcol
    rw [htc] at hcol
    rcases List.mem_cons.mp hcol with rfl | hcol2
    · exact hlen _ (hpre_sub _ (List.mem_cons_self _ _))
    · rcases List.mem_cons.mp hcol2 with rfl | hcol3
      · simp only [clean_text_series, List.length_map]
        exact hlen _ (by rw [hcols]; exact List.mem_cons_self _ _)
      · exact hlen _ (hpre_sub _ (List.mem_cons_of_mem _ hcol3))
  · intro col hcol hne
    have hpm : col ∈ c0 :: cs := by
      rw [← hpre]
      by_cases hany : df.cols.any (fun c => c.1 == "Cleaned") = true
      · rw [if_pos hany]
        exact List.mem_filter.mpr ⟨hcol, by simpa using hne⟩
      · rw [if_neg hany]
        exact hcol
    rw [htc]
    rcases List.mem_cons.mp hpm with rfl | h2
    · exact List.mem_cons_self _ _
    · exact List.mem_cons_of_mem _ (List.mem_cons_of_mem _ h2)

/-- C6 witness: the input column of a concrete two-row table survives
in the output with its values. -/
theorem rows_preserved_witness :
    ("K", [Cell.text "a", Cell.blank]) ∈
      (Table.mk [("K", [Cell.text "a", Cell.blank]),
        ("Cleaned", [Cell.text "a", Cell.text "nan"])]).cols :=
  (rows_preserved ⟨[("K", [Cell.text "a", Cell.blank])]⟩
    ⟨[("K", [Cell.text "a", Cell.blank]),
      ("Cleaned", [Cell.text "a", Cell.text "nan"])]⟩ 2
    (by decide) (by decide)).2 _ (by decide) (by decide)

/-- C9: a blank cell of the designated input column comes out of a
successful run as the literal text nan in the Cleaned column, not as
the empty string. -/
theorem blank_cleans_to_nan (df t : Table) (name : String) (vs : List Cell)
    (rest : List (String × List Cell)) (i : Nat)
    (hcols : df.cols = (name, vs) :: rest) (hblank : vs[i]? = some Cell.blank)
    (hrun : runPipeline df = .ok t) :
    ∃ cl, ("Cleaned", cl) ∈ t.cols ∧ cl[i]? = some (Cell.text "nan") ∧
      (("nan" : String) == "") = false := by
  obtain ⟨name', vs', rest', hcols', hv, hout⟩ := runPipeline_ok_inv hrun
  rw [hcols] at hcols'
  simp only [List.cons.injEq, Prod.mk.injEq] at hcols'
  obtain ⟨⟨rfl, rfl⟩, rfl⟩ := hcols'
  obtain ⟨c0, cs, hpre, htc⟩ := out_df_some_inv hout
  refine ⟨(clean_text_series vs).map Cell.text, ?_, ?_, by decide⟩
  · rw [htc]
    exact List.mem_cons_of_mem _ (List.mem_cons_self _ _)
  · simp [clean_text_series, List.getElem?_map, hblank, coerceStr,
      clean_text_nan]

/-- C9 witness: a table whose only column holds one blank cell yields
nan at row 0 of the Cleaned column. -/
theorem blank_cleans_to_nan_witness :
    ∃ cl, ("Cleaned", cl) ∈
        (Table.mk [("K", [Cell.blank]),
          ("Cleaned", [Cell.text "nan"])]).cols ∧
      cl[0]? = some (Cell.text "nan") ∧ (("nan" : String) == "") = false :=
  blank_cleans_to_nan ⟨[("K", [Cell.blank])]⟩
    ⟨[("K", [Cell.blank]), ("Cleaned", [Cell.text "nan"])]⟩
    "K" [Cell.blank] [] 0 rfl (by decide) (by decide)

/-- C10 counterexample: with the first column itself named Cleaned
and holding already clean values, those original values do appear in
the output, inside the reinserted Cleaned column. -/
theorem cleaned_column_values_counterexample :
    runPipeline ⟨[("Cleaned", [Cell.text "abc"]), ("B", [Cell.text "x"])]⟩ =
      .ok ⟨[("B", [Cell.text "x"]), ("Cleaned", [Cell.text "abc"])]⟩ ∧
    ("Cleaned", [Cell.text "abc"]) ∈
      [("B", [Cell.text "x"]), ("Cleaned", [Cell.text "abc"])] :=
  ⟨by decide, by decide⟩

/-- C10 (amended): when the first column is named Cleaned, has a
uniquely held name, and at least one other column follows, the run
drops that column and the output is the remaining columns with the
cleaned values inserted at position 1 under the name Cleaned; the
original values survive only where cleaning leaves them unchanged. -/
theorem cleaned_first_col_replaced (df : Table) (vs : List Cell)
    (c2 : String × List Cell) (rest : List (String × List Cell))
    (hcols : df.cols = ("Cleaned", vs) :: c2 :: rest)
    (hc2 : c2.1 ≠ "Cleaned") (hrest : "Cleaned" ∉ rest.map Prod.fst) :
    runPipeline df =
      .ok ⟨c2 :: ("Cleaned", (clean_text_series vs).map Cell.text) :: rest⟩ := by
  have hv : validate df = .ok "Cleaned" := validate_of_shape hcols (by decide)
  have hany : df.cols.any (fun c => c.1 == "Cleaned") = true := by
    rw [hcols]
    simp
  have hfil : df.cols.filter (fun c => c.1 != "Cleaned") = c2 :: rest := by
    rw [hcols, List.filter_cons, if_neg (by simp), List.filter_cons,
      if_pos (by simpa using hc2), filter_ne_cleaned_eq_self hrest]
  rw [runPipeline_eq hcols hv, out_df_eq, if_pos hany, hfil, insertAt_one_cons]
  rfl

/-- C10 witness: the concrete two-column case with the first column
named Cleaned. -/
theorem cleaned_first_col_replaced_witness :
    runPipeline ⟨[("Cleaned", [Cell.text "abc"]), ("B", [Cell.text "x"])]⟩ =
      .ok ⟨[("B", [Cell.text "x"]),
        ("Cleaned", (clean_text_series [Cell.text "abc"]).map Cell.text)]⟩ :=
  cleaned_first_col_replaced
    ⟨[("Cleaned", [Cell.text "abc"]), ("B", [Cell.text "x"])]⟩
    [Cell.text "abc"] ("B", [Cell.text "x"]) [] rfl (by decide) (by decide)

end ExcelCleaner
